import Mathlib

/-!
Shallow embedding of the `lru-cache-system` repository
(`src/lru_cache.py`, `src/sized_lru_cache.py`, `src/mobile_cache.py`,
`src/disk_cache.py`).

The memory-tier cache stores its entries in a Python `OrderedDict`; we
model that dictionary as an association list `List (K × V)` whose head is
the least-recently-used entry and whose last element is the
most-recently-used entry (the end of the `OrderedDict`).  Metrics are
Python ints, which can be made negative through `LRUCache.load`, so they
are modelled as `Int`.
-/

namespace LRUSystem

/-- Python exceptions that the modelled code can raise. -/
inductive PyErr where
  | attributeError (attr : String)
  | valueError (msg : String)
deriving DecidableEq, Repr

/-- State of an `LRUCache` instance (`lru_cache.py`, lines 15–29):
`_capacity`, `_cache` (an `OrderedDict`, head = least recently used),
and the metrics `_hits`, `_misses`, `_evictions`. The `_lock` field is
not modelled: every public operation acquires and releases it for its
whole duration, so sequential behaviour is unaffected. -/
structure LRUState (K V : Type) where
  capacity : Nat
  cache : List (K × V)
  hits : Int
  misses : Int
  evictions : Int
deriving DecidableEq, Repr

variable {K V : Type} [DecidableEq K]

/-- Membership test `key in self._cache` on the dict. -/
def containsKey (k : K) (l : List (K × V)) : Bool :=
  l.any (fun p => decide (p.1 = k))

/-- The effect of `OrderedDict.move_to_end(key)`, keeping the value, is
`eraseKey k l ++ [(k, old value)]`; we use this building block with the
value that ends up stored. -/
def eraseKey (k : K) (l : List (K × V)) : List (K × V) :=
  l.filter (fun p => decide (p.1 ≠ k))

/-- Constructor `LRUCache.__init__(capacity)` after the positivity check
(`lru_cache.py`, lines 15–29). -/
def lruInit (capacity : Nat) : LRUState K V :=
  { capacity := capacity, cache := [], hits := 0, misses := 0, evictions := 0 }

/-- Method `LRUCache.get` (`lru_cache.py`, lines 31–43): on a miss increment
`_misses` and return `None`; on a hit increment `_hits`, move the key to
the end and return its value.  The returned `Option V` is `none` exactly
when the Python call returns for the miss branch. -/
def lruGet (k : K) (s : LRUState K V) : Option V × LRUState K V :=
  match s.cache.find? (fun p => decide (p.1 = k)) with
  | none => (none, { s with misses := s.misses + 1 })
  | some p =>
      (some p.2,
       { s with hits := s.hits + 1, cache := eraseKey k s.cache ++ [(k, p.2)] })

/-- The eviction loop of `LRUCache._evict_if_needed` (`lru_cache.py`,
lines 57–62): `while len(self._cache) > self._capacity:` pop the head via
`popitem(last=False)` and count one eviction (`lru_cache.py`, lines
64–69).  Returns the remaining entries and the number of evictions. -/
def evictFrom (cap : Nat) : List (K × V) → List (K × V) × Nat
  | [] => ([], 0)
  | x :: t =>
      if cap < (x :: t).length then
        let r := evictFrom cap t
        (r.1, r.2 + 1)
      else
        (x :: t, 0)

/-- Method `LRUCache._evict_if_needed` applied to a whole state. -/
def evictIfNeeded (s : LRUState K V) : LRUState K V :=
  let r := evictFrom s.capacity s.cache
  { s with cache := r.1, evictions := s.evictions + r.2 }

/-- Method `LRUCache.put` (`lru_cache.py`, lines 45–55): if the key exists,
`move_to_end` then assign (which replaces the value in place at the
end); otherwise the assignment appends the new pair at the end.  Then
`_evict_if_needed()`. -/
def lruPut (k : K) (v : V) (s : LRUState K V) : LRUState K V :=
  let newCache :=
    if containsKey k s.cache then eraseKey k s.cache ++ [(k, v)]
    else s.cache ++ [(k, v)]
  evictIfNeeded { s with cache := newCache }

/-- The `data` dictionary built by `LRUCache.save` (`lru_cache.py`,
lines 91–101) and consumed by `LRUCache.load`.  `capacity` and the
metrics are arbitrary JSON integers on the load side, hence `Int`. -/
structure SavedData (K V : Type) where
  capacity : Int
  entries : List (K × V)
  hits : Int
  misses : Int
  evictions : Int
deriving DecidableEq, Repr

/-- The serialization half of `LRUCache.save` (`lru_cache.py`, lines
85–104): the `data` dict written to disk.  Entries are listed from least
to most recently used (`self._cache.items()` order). -/
def saveModel (s : LRUState K V) : SavedData K V :=
  { capacity := (s.capacity : Int), entries := s.cache,
    hits := s.hits, misses := s.misses, evictions := s.evictions }

/-- Python dict assignment `d[k] = v`: replaces the value in place if the
key exists (keeping its position), otherwise appends at the end. -/
def dictInsert (l : List (K × V)) (k : K) (v : V) : List (K × V) :=
  if containsKey k l then
    l.map (fun p => if p.1 = k then (k, v) else p)
  else l ++ [(k, v)]

/-- The dict produced by the load loop
`for entry in data.get("entries", []): cache._cache[entry["key"]] = entry["value"]`
(`lru_cache.py`, lines 117–118). -/
def dictOfEntries (entries : List (K × V)) : List (K × V) :=
  entries.foldl (fun acc p => dictInsert acc p.1 p.2) []

/-- Classmethod `LRUCache.load` (`lru_cache.py`, lines 106–129).  `cls(data["capacity"])`
raises `ValueError` for a non-positive capacity (line 16–17); entries are
re-inserted with dict semantics; metrics are restored unvalidated; finally
`len(cache._cache) > cache._capacity` raises `ValueError` (lines 126–127). -/
def loadModel (d : SavedData K V) : Except PyErr (LRUState K V) :=
  if d.capacity ≤ 0 then .error (.valueError "capacity must be positive")
  else
    let cacheDict := dictOfEntries d.entries
    if d.capacity.toNat < cacheDict.length then
      .error (.valueError "loaded cache exceeds declared capacity")
    else
      .ok { capacity := d.capacity.toNat, cache := cacheDict,
            hits := d.hits, misses := d.misses, evictions := d.evictions }

/-! ### `SizedLRUCache` (`sized_lru_cache.py`) -/

/-- Every attribute (method or instance field) defined on a
`SizedLRUCache` instance: the methods and `__init__`-assigned fields of
`class LRUCache` (`lru_cache.py`) together with those of
`class SizedLRUCache` (`sized_lru_cache.py`).  Python attribute lookup
on the instance succeeds exactly for the names in this list;
`self._mark_recently_used` (sized_lru_cache.py, lines 82 and 94) and
`self._record_eviction` (line 135) are not among them, so evaluating
them raises `AttributeError`. -/
def sizedLRUCacheAttrs : List String :=
  [ -- class LRUCache, lru_cache.py
   "__init__", "get", "put", "_evict_if_needed", "_evict_least_recently_used",
   "get_stats", "save", "load",
   "_capacity", "_cache", "_hits", "_misses", "_evictions", "_lock",
   -- class SizedLRUCache, sized_lru_cache.py
   "size_of", "_evict_until_space_available",
   "_max_size_bytes", "_current_size_bytes"]

/-- State of a `SizedLRUCache` instance: the inherited `LRUCache` state
(constructed with the placeholder capacity `10^9`, sized_lru_cache.py
line 28) plus `_max_size_bytes` and `_current_size_bytes`. -/
structure SizedState (K V : Type) where
  base : LRUState K V
  maxSize : Nat
  currentSize : Int
deriving DecidableEq, Repr

/-- Constructor `SizedLRUCache.__init__(max_size_bytes)` after the positivity check
(`sized_lru_cache.py`, lines 13–31). -/
def sizedInit (maxSizeBytes : Nat) : SizedState K V :=
  { base := lruInit (10 ^ 9), maxSize := maxSizeBytes, currentSize := 0 }

/-- Method `SizedLRUCache.put` (`sized_lru_cache.py`, lines 59–95), with the
sizing function `size_of` passed as the parameter `sz` (it is documented
as overridable; the default wraps `sys.getsizeof`, which is
interpreter-specific).

An over-budget item is rejected silently before any state is touched
(lines 74–75).  Both surviving paths then fail with `AttributeError`:

* existing key (lines 77–88): after `self._cache[key] = value`, line 82
  evaluates `self._mark_recently_used`, an attribute absent from
  `sizedLRUCacheAttrs`;
* new key (lines 89–95): `_evict_until_space_available` (lines 104–115)
  runs its loop while `available_space < required_size and len > 0`,
  and its first eviction reaches `self._record_eviction()`
  (line 135), also absent; if no eviction is needed, the insertion at
  line 93 is followed by `self._mark_recently_used` at line 94.

The exception propagates out of `put`, so the post-exception state is
not observable through the return. -/
def sizedPut (sz : K → V → Nat) (k : K) (v : V) (s : SizedState K V) :
    Except PyErr (SizedState K V) :=
  let itemSize := sz k v
  if s.maxSize < itemSize then .ok s
  else if containsKey k s.base.cache then
    .error (.attributeError "_mark_recently_used")
  else if (s.maxSize : Int) - s.currentSize < (itemSize : Int) ∧ 0 < s.base.cache.length then
    .error (.attributeError "_record_eviction")
  else
    .error (.attributeError "_mark_recently_used")

/-! ### `MobileCache` (`mobile_cache.py`) and `DiskCache` (`disk_cache.py`)

`MobileCache.get` works over whatever memory tier it was constructed
with (`memory_cache: LRUCache`, "typically SizedLRUCache").  We embed it
twice, once per memory-tier type; the disk tier is represented by the
Python return value of `DiskCache.get` as a function of the key
(`none` = absent, I/O failure or unpickling failure, all of which return
`None`, disk_cache.py lines 67–87). -/

/-- Method `MobileCache.get` (`mobile_cache.py`, lines 37–66) with a plain
`LRUCache` memory tier.  Values range over `Option α` so that the Python
value `None` (`Option.none`) can be stored; `value is not None` is the
test on the conflated return of `LRUCache.get`, which is the stored
value on a hit and `None` on a miss. -/
def mobileGet {α : Type} (k : K) (mem : LRUState K (Option α))
    (disk : K → Option α) : Option α × LRUState K (Option α) :=
  let r := lruGet k mem
  match r.1.join with
  | some val => (some val, r.2)
  | none =>
      match disk k with
      | some dval => (some dval, lruPut k (some dval) r.2)
      | none => (none, r.2)

/-- Method `MobileCache.get` (`mobile_cache.py`, lines 37–66) with a
`SizedLRUCache` memory tier.  The promotion step (line 62,
`self._memory_cache.put(key, value)`) has no `try`/`except` around it,
so an exception raised by the memory-tier `put` propagates to the
caller. -/
def mobileGetSized (sz : K → V → Nat) (k : K) (mem : SizedState K V)
    (disk : K → Option V) : Except PyErr (Option V × SizedState K V) :=
  let r := lruGet k mem.base
  match r.1 with
  | some val => .ok (some val, { mem with base := r.2 })
  | none =>
      match disk k with
      | some dval =>
          match sizedPut sz k dval { mem with base := r.2 } with
          | .ok m2 => .ok (some dval, m2)
          | .error e => .error e
      | none => .ok (none, { mem with base := r.2 })

/-! ### File-operation traces for the persistence paths -/

/-- A filesystem operation performed by the persistence code, carrying
the payload type `β` for writes. -/
inductive FileOp (β : Type) where
  | write (path : String) (data : β)
  | rename (src : String) (dst : String)
  | unlink (path : String)
deriving DecidableEq, Repr

/-- The file operations performed by `LRUCache.save(filepath)`
(`lru_cache.py`, lines 103–104): `open(filepath, "w")` followed by
`json.dump(data, f)` — a single direct write of the serialized state to
the destination path itself. -/
def lruSaveOps (filepath : String) (s : LRUState K V) :
    List (FileOp (SavedData K V)) :=
  [.write filepath (saveModel s)]

/-- The file operations performed by a successful `DiskCache.put`
(`disk_cache.py`, lines 101–110): write the pickled value to the `.tmp`
sibling, then atomically rename it onto the destination. -/
def diskPutOps {β : Type} (filepath : String) (blob : β) : List (FileOp β) :=
  [.write (filepath ++ ".tmp") blob, .rename (filepath ++ ".tmp") filepath]

/-- A trace publishes atomically with respect to `dest` when it never
writes file data directly to `dest`: the destination can only come into
existence via `rename`, so a reader never observes a partially written
file there. -/
def publishesViaTemp {β : Type} (dest : String) (ops : List (FileOp β)) : Bool :=
  ops.all fun op =>
    match op with
    | .write p _ => decide (p ≠ dest)
    | _ => true

/-! ### Observation predicates and spec-side characterizations -/

/-- The key `k` sits at the tail (most-recently-used end) of the
recency order, strictly after all other resident keys. -/
def keyAtTail (k : K) (l : List (K × V)) : Prop :=
  ∃ t v, l = t ++ [(k, v)] ∧ ∀ p ∈ t, p.1 ≠ k

/-- Run a whole sequence of `put` operations on a freshly constructed
count-bounded cache of capacity `C`. -/
def applyPuts (C : Nat) (ops : List (K × V)) : LRUState K V :=
  ops.foldl (fun s p => lruPut p.1 p.2 s) (lruInit C)

/-- Spec-side characterization, from the claim's words (not from the
source): the distinct keys touched by the sequence, ordered from least
to most recently touched — each new touch removes the key's earlier
occurrence and re-appends it at the end. -/
def mostRecentlyTouched (ks : List K) : List K :=
  ks.foldl (fun acc k => acc.filter (fun x => decide (x ≠ k)) ++ [k]) []

/-- The last `n` elements of a list (all of it if it is shorter). -/
def lastN {α : Type} (n : Nat) (l : List α) : List α :=
  l.drop (l.length - n)

/-! ### Helper lemmas -/

theorem containsKey_eq_false_iff {k : K} {l : List (K × V)} :
    containsKey k l = false ↔ ∀ p ∈ l, p.1 ≠ k := by
  simp [containsKey]

theorem containsKey_eq_true_iff {k : K} {l : List (K × V)} :
    containsKey k l = true ↔ ∃ p ∈ l, p.1 = k := by
  simp [containsKey]

theorem mem_eraseKey_ne {k : K} {l : List (K × V)} {p : K × V}
    (hp : p ∈ eraseKey k l) : p.1 ≠ k := by
  have := (List.mem_filter.mp hp).2
  simpa using this

end LRUSystem

namespace LRUSystem

variable {K V : Type} [DecidableEq K]

/-! ### C1 -/

/-- C1. The claim states that every public operation on a
successfully constructed memory-tier cache completes without raising,
and in particular that a size-bounded `put` of a within-budget item
succeeds.  On the code this is false: `SizedLRUCache.put` evaluates
`self._mark_recently_used(key)` (and its eviction path
`self._record_eviction()`), attributes that no class in the repository
defines, so every within-budget insert raises `AttributeError`.  Here:
a `SizedLRUCache` validly constructed with budget 1000 and an item of
computed size 151 ≤ 1000. -/
theorem c1_within_budget_put_raises :
    (0 : Nat) < 1000 ∧
    (151 : Nat) ≤ 1000 ∧
    sizedPut (K := Nat) (V := Nat) (fun _ _ => 151) 0 0 (sizedInit 1000) =
      .error (.attributeError "_mark_recently_used") ∧
    "_mark_recently_used" ∉ sizedLRUCacheAttrs ∧
    "_record_eviction" ∉ sizedLRUCacheAttrs := by
  refine ⟨by decide, by decide, rfl, by decide, by decide⟩

/-! ### C4 -/

/-- C4 counterexample. The claim states that a persisted state with
any negative metric fails to load with a `CorruptStateError`.  On the
code this is false: `LRUCache.load` never validates the metrics — a
state with `hits = -1` loads successfully and the negative counter is
restored as-is (and the repository defines no `CorruptStateError` at
all; the one validation failure raises `ValueError`). -/
theorem c4_counterexample_negative_metric_loads :
    loadModel (K := Nat) (V := Nat)
        { capacity := 1, entries := [], hits := -1, misses := 0, evictions := 0 } =
      .ok { capacity := 1, cache := [], hits := -1, misses := 0, evictions := 0 } ∧
    (-1 : Int) < 0 := by
  exact ⟨rfl, by decide⟩

/-- C4 amended. `load` fails (with `ValueError`, the only error the
code raises) exactly when the declared capacity is non-positive or the
number of *distinct* reconstructed entries exceeds the declared
capacity; the three metrics are restored without any validation, so
negative metrics load successfully. -/
theorem c4_amended_load_failure_iff (d : SavedData K V) :
    (∃ e, loadModel d = .error e) ↔
      (d.capacity ≤ 0 ∨ d.capacity.toNat < (dictOfEntries d.entries).length) := by
  unfold loadModel
  by_cases h1 : d.capacity ≤ 0
  · simp [h1]
  · rw [if_neg h1]
    by_cases h2 : d.capacity.toNat < (dictOfEntries d.entries).length
    · simp [h2, h1]
    · simp [h2, h1]

/-! ### C3 -/

theorem containsKey_append {k : K} {l₁ l₂ : List (K × V)} :
    containsKey k (l₁ ++ l₂) = (containsKey k l₁ || containsKey k l₂) := by
  simp [containsKey, List.any_append]

/-- Re-inserting a list of entries with pairwise-distinct keys into an
accumulator dict containing none of those keys appends them in order. -/
theorem dictFoldl_append (l acc : List (K × V))
    (hnd : (l.map Prod.fst).Nodup)
    (hd : ∀ p ∈ l, containsKey p.1 acc = false) :
    l.foldl (fun a p => dictInsert a p.1 p.2) acc = acc ++ l := by
  induction l generalizing acc with
  | nil => simp
  | cons x t ih =>
      have hx : containsKey x.1 acc = false := hd x (by simp)
      have hstep : dictInsert acc x.1 x.2 = acc ++ [x] := by
        simp [dictInsert, hx]
      rw [List.foldl_cons, hstep, ih]
      · simp
      · exact (List.nodup_cons.mp (by simpa using hnd)).2
      · intro p hp
        rw [containsKey_append]
        have hpe : p.1 ≠ x.1 := by
          have hx1 : x.1 ∉ t.map Prod.fst := (List.nodup_cons.mp (by simpa using hnd)).1
          intro hcontra
          exact hx1 (hcontra ▸ List.mem_map_of_mem Prod.fst hp)
        have h1 : containsKey p.1 acc = false := hd p (List.mem_cons_of_mem x hp)
        have h2 : containsKey p.1 [x] = false := by
          simp only [containsKey, List.any_cons, List.any_nil, Bool.or_false,
            decide_eq_false_iff_not]
          exact fun h => hpe h.symm
        simp [h1, h2]

/-- The load loop reproduces a key-distinct entries list exactly. -/
theorem dictOfEntries_eq_self (l : List (K × V)) (hnd : (l.map Prod.fst).Nodup) :
    dictOfEntries l = l := by
  unfold dictOfEntries
  rw [dictFoldl_append l [] hnd (fun p _ => rfl)]
  simp

/-- C3. `save` then `load` reproduces an observably identical cache:
loading the exact `data` dictionary written by `save` yields back the
very same state — same capacity, same entries in the same recency order,
and the same hits/misses/evictions metrics.  The hypotheses are the
invariants every reachable cache satisfies: positive capacity (enforced
by the constructor), entry count within capacity (enforced by
`_evict_if_needed`), and pairwise-distinct keys (a dict property). -/
theorem c3_save_load_roundtrip (s : LRUState K V) (hcap : 1 ≤ s.capacity)
    (hlen : s.cache.length ≤ s.capacity)
    (hnd : (s.cache.map Prod.fst).Nodup) :
    loadModel (saveModel s) = .ok s := by
  unfold loadModel saveModel
  have h1 : ¬ ((s.capacity : Int) ≤ 0) := by
    simp only [not_le]
    exact_mod_cast hcap
  rw [if_neg h1]
  simp only
  rw [dictOfEntries_eq_self s.cache hnd]
  have h2 : ¬ ((s.capacity : Int).toNat < s.cache.length) := by
    simp only [Int.toNat_natCast, not_lt]
    exact hlen
  rw [if_neg h2]
  simp [Int.toNat_natCast]

/-- Witness for C3: capacity 3, two entries, some accumulated metrics. -/
theorem c3_witness :
    (1 : Nat) ≤ 3 ∧
    loadModel (saveModel ({ capacity := 3, cache := [(1, 10), (2, 20)], hits := 4,
                            misses := 2, evictions := 1 } : LRUState Nat Nat)) =
      .ok { capacity := 3, cache := [(1, 10), (2, 20)], hits := 4,
            misses := 2, evictions := 1 } :=
  ⟨by decide,
   c3_save_load_roundtrip
     { capacity := 3, cache := [(1, 10), (2, 20)], hits := 4, misses := 2, evictions := 1 }
     (by decide) (by decide) (by decide)⟩

/-! ### C5 -/

/-- C5. The claim states that a failure of the promotion step in a
tiered `get` (memory miss, disk hit) is not surfaced to the caller and
the disk value is still returned.  On the code this is false:
`MobileCache.get` has no `try`/`except` around
`self._memory_cache.put(key, value)`, and with the typical
`SizedLRUCache` memory tier that `put` raises `AttributeError`
(see C1), so the tiered `get` raises instead of returning the value
found on disk.  Here: empty memory tier with budget 1000, disk holding
key 7 ↦ 42, item size 151. -/
theorem c5_promotion_failure_surfaced :
    (fun k => if k = 7 then some 42 else none : Nat → Option Nat) 7 = some 42 ∧
    mobileGetSized (fun _ _ => 151) 7 (sizedInit 1000)
        (fun k => if k = 7 then some 42 else none) =
      .error (.attributeError "_mark_recently_used") := by
  exact ⟨rfl, rfl⟩

/-! ### C6 -/

/-- C6 counterexample. The claim states that *every* save of a
memory-tier cache writes to a temporary location and atomically
publishes.  On the code this is false: `LRUCache.save` performs a single
direct `open(filepath, "w")` + `json.dump` to the destination path
itself, so its trace writes file data directly to the destination. -/
theorem c6_counterexample_save_writes_directly :
    lruSaveOps (K := Nat) (V := Nat) "cache.json"
        { capacity := 2, cache := [(1, 10)], hits := 0, misses := 0, evictions := 0 } =
      [.write "cache.json"
        { capacity := 2, entries := [(1, 10)], hits := 0, misses := 0, evictions := 0 }] ∧
    publishesViaTemp "cache.json"
      (lruSaveOps (K := Nat) (V := Nat) "cache.json"
        { capacity := 2, cache := [(1, 10)], hits := 0, misses := 0, evictions := 0 }) = false := by
  exact ⟨rfl, by decide⟩

/-- C6 amended. Only the disk tier publishes atomically:
`DiskCache.put` writes the payload to the `.tmp` sibling and renames it
onto the destination, never writing file data to the destination path
directly, while `LRUCache.save` is a single direct write of the
serialized state to the destination path (no temporary file), so a
reader can observe a partially written file there. -/
theorem c6_amended_only_disk_put_is_atomic (fp : String) {β : Type} (blob : β)
    (s : LRUState K V) :
    publishesViaTemp fp (diskPutOps fp blob) = true ∧
    lruSaveOps fp s = [.write fp (saveModel s)] := by
  refine ⟨?_, rfl⟩
  have hne : fp ++ ".tmp" ≠ fp := by
    intro h
    have := congrArg String.length h
    rw [String.length_append] at this
    have h4 : ".tmp".length = 4 := rfl
    omega
  simp [publishesViaTemp, diskPutOps, hne]

/-! ### C7 -/

/-- C7. A `put` whose computed item size exceeds the budget is
rejected silently: `SizedLRUCache.put` returns before touching any
state (lines 74–75), so no insertion, no eviction, no error, and the
cache state (entries, recency order, size accounting, metrics) is
returned entirely unchanged. -/
theorem c7_oversized_put_rejected_silently (sz : K → V → Nat) (k : K) (v : V)
    (s : SizedState K V) (h : s.maxSize < sz k v) :
    sizedPut sz k v s = .ok s := by
  simp [sizedPut, h]

/-- Witness for C7: budget 250, item of computed size 300. -/
theorem c7_witness :
    (250 : Nat) < 300 ∧
    sizedPut (K := Nat) (V := Nat) (fun _ _ => 300) 1 2 (sizedInit 250) =
      .ok (sizedInit 250) :=
  ⟨by decide, c7_oversized_put_rejected_silently (fun _ _ => 300) 1 2 (sizedInit 250) (by decide)⟩

/-! ### C8 -/

/-- The eviction loop keeps exactly the `cap` most recent entries: it
drops `length - cap` entries from the head. -/
theorem evictFrom_fst (cap : Nat) (l : List (K × V)) :
    (evictFrom cap l).1 = l.drop (l.length - cap) := by
  induction l with
  | nil => simp [evictFrom]
  | cons x t ih =>
      by_cases h : cap < (x :: t).length
      · rw [evictFrom, if_pos h]
        have hlen : (x :: t).length - cap = (t.length - cap) + 1 := by
          simp only [List.length_cons] at h ⊢
          omega
        rw [hlen, List.drop_succ_cons]
        exact ih
      · rw [evictFrom, if_neg h]
        have hlen : t.length + 1 - cap = 0 := by
          simp only [List.length_cons] at h
          omega
        simp only [List.length_cons, hlen, List.drop_zero]

theorem evictIfNeeded_cache (s : LRUState K V) :
    (evictIfNeeded s).cache = s.cache.drop (s.cache.length - s.capacity) := by
  simp [evictIfNeeded, evictFrom_fst]

theorem keyAtTail_of_append_singleton {k : K} {v : V} {pre : List (K × V)}
    {l : List (K × V)} (hl : l = pre ++ [(k, v)])
    (hpre : ∀ p ∈ pre, p.1 ≠ k) : keyAtTail k l :=
  ⟨pre, v, hl, hpre⟩

/-- C8. Touching a key puts it strictly after all other resident
keys: a `put` (of a new or existing key) leaves `k` as the unique tail
of the recency order, and a successful `get` on a resident key does the
same.  The only assumption is the constructor invariant `capacity ≥ 1`
(so an eviction triggered by the `put` cannot evict the just-inserted
tail). -/
theorem c8_touched_key_moves_to_tail (s : LRUState K V) (k : K) (v : V)
    (hcap : 1 ≤ s.capacity) :
    keyAtTail k (lruPut k v s).cache ∧
    (containsKey k s.cache = true → keyAtTail k (lruGet k s).2.cache) := by
  constructor
  · -- the put half
    set X : List (K × V) :=
      (if containsKey k s.cache then eraseKey k s.cache ++ [(k, v)]
       else s.cache ++ [(k, v)]) with hX
    have hXtail : ∃ pre, X = pre ++ [(k, v)] ∧ ∀ p ∈ pre, p.1 ≠ k := by
      by_cases hmem : containsKey k s.cache
      · exact ⟨eraseKey k s.cache, by rw [hX, if_pos hmem],
          fun p hp => mem_eraseKey_ne hp⟩
      · exact ⟨s.cache, by rw [hX, if_neg hmem],
          fun p hp => containsKey_eq_false_iff.mp (Bool.of_not_eq_true hmem) p hp⟩
    obtain ⟨pre, hXeq, hpre⟩ := hXtail
    have hput : (lruPut k v s).cache = X.drop (X.length - s.capacity) := by
      rw [lruPut, evictIfNeeded_cache]
    have hdroplen : X.length - s.capacity ≤ pre.length := by
      rw [hXeq]
      simp only [List.length_append, List.length_singleton]
      omega
    rw [hput, hXeq, List.drop_append_eq_append_drop]
    have hnil : ([((k : K), (v : V))] : List (K × V)).drop
        ((pre ++ [(k, v)]).length - s.capacity - pre.length) = [(k, v)] := by
      have : (pre ++ [(k, v)]).length - s.capacity - pre.length = 0 := by
        simp only [List.length_append, List.length_singleton]
        omega
      rw [this]
      rfl
    rw [hXeq] at hdroplen
    rw [hnil]
    exact keyAtTail_of_append_singleton rfl
      (fun p hp => hpre p (List.drop_subset _ pre hp))
  · -- the get half
    intro hmem
    cases hf : s.cache.find? (fun p => decide (p.1 = k)) with
    | none =>
        exfalso
        obtain ⟨p, hp, hpk⟩ := containsKey_eq_true_iff.mp hmem
        exact absurd (decide_eq_true hpk) (by simpa using List.find?_eq_none.mp hf p hp)
    | some p =>
        have : (lruGet k s).2.cache = eraseKey k s.cache ++ [(k, p.2)] := by
          simp [lruGet, hf]
        rw [this]
        exact keyAtTail_of_append_singleton rfl (fun q hq => mem_eraseKey_ne hq)

/-- Witness for C8: capacity-2 cache holding keys 1 and 2 (key 1 least
recent), touched at key 1. -/
theorem c8_witness :
    (1 : Nat) ≤ 2 ∧
    (keyAtTail 1
      (lruPut 1 99
        ({ capacity := 2, cache := [(1, 10), (2, 20)], hits := 0, misses := 0,
           evictions := 0 } : LRUState Nat Nat)).cache ∧
     (containsKey 1 ([(1, 10), (2, 20)] : List (Nat × Nat)) = true →
      keyAtTail 1
        (lruGet 1
          ({ capacity := 2, cache := [(1, 10), (2, 20)], hits := 0, misses := 0,
             evictions := 0 } : LRUState Nat Nat)).2.cache)) :=
  ⟨by decide,
   c8_touched_key_moves_to_tail
     { capacity := 2, cache := [(1, 10), (2, 20)], hits := 0, misses := 0, evictions := 0 }
     1 99 (by decide)⟩

/-! ### C10 -/

/-- C10. A key resident with the stored value `None` behaves, to the
caller of `get`, exactly like a miss (the call returns `None`), yet the
cache counts a hit — not a miss — and refreshes the key's recency; and
because `MobileCache.get` tests `value is not None`, a tiered get on
such a key falls through to the disk tier despite the memory-resident
entry, returning whatever the disk tier returns.  The hypothesis states
that the dict lookup for `k` finds the entry `(k, None)`. -/
theorem c10_none_value_hit_indistinguishable {α : Type} (s : LRUState K (Option α))
    (k : K) (disk : K → Option α)
    (hres : s.cache.find? (fun p => decide (p.1 = k)) = some (k, none)) :
    (lruGet k s).1 = some none ∧
    (lruGet k s).1.join = none ∧
    (lruGet k s).2.hits = s.hits + 1 ∧
    (lruGet k s).2.misses = s.misses ∧
    keyAtTail k (lruGet k s).2.cache ∧
    (mobileGet k s disk).1 = disk k := by
  have hget : lruGet k s =
      (some none,
       { s with hits := s.hits + 1, cache := eraseKey k s.cache ++ [(k, none)] }) := by
    simp [lruGet, hres]
  refine ⟨by rw [hget], by rw [hget]; rfl, by rw [hget], by rw [hget], ?_, ?_⟩
  · rw [hget]
    exact keyAtTail_of_append_singleton rfl (fun q hq => mem_eraseKey_ne hq)
  · unfold mobileGet
    rw [hget]
    cases hd : disk k <;> simp [hd]

/-- Witness for C10: cache holding key 0 with stored value `None`, disk
holding 5 for every key. -/
theorem c10_witness :
    ((([(0, (none : Option Nat))] : List (Nat × Option Nat)).find?
        (fun p => decide (p.1 = 0))) = some (0, none)) ∧
    ((lruGet 0 ({ capacity := 2, cache := [(0, none)], hits := 0, misses := 0,
                  evictions := 0 } : LRUState Nat (Option Nat))).1 = some none ∧
     (lruGet 0 ({ capacity := 2, cache := [(0, none)], hits := 0, misses := 0,
                  evictions := 0 } : LRUState Nat (Option Nat))).1.join = none ∧
     (lruGet 0 ({ capacity := 2, cache := [(0, none)], hits := 0, misses := 0,
                  evictions := 0 } : LRUState Nat (Option Nat))).2.hits = 0 + 1 ∧
     (lruGet 0 ({ capacity := 2, cache := [(0, none)], hits := 0, misses := 0,
                  evictions := 0 } : LRUState Nat (Option Nat))).2.misses = 0 ∧
     keyAtTail 0 (lruGet 0 ({ capacity := 2, cache := [(0, none)], hits := 0,
                              misses := 0,
                              evictions := 0 } : LRUState Nat (Option Nat))).2.cache ∧
     (mobileGet 0 ({ capacity := 2, cache := [(0, none)], hits := 0, misses := 0,
                     evictions := 0 } : LRUState Nat (Option Nat))
        (fun _ => some 5)).1 = (fun _ => some (5 : Nat)) 0) :=
  ⟨by decide,
   c10_none_value_hit_indistinguishable
     { capacity := 2, cache := [(0, none)], hits := 0, misses := 0, evictions := 0 }
     0 (fun _ => some 5) (by decide)⟩

/-! ### C9 -/

/-- C9. `get` on an absent key returns `None`, increments exactly
the miss counter, and leaves everything else — resident entries, recency
order, hit counter, eviction counter, capacity — unchanged. -/
theorem c9_get_absent_only_counts_miss (s : LRUState K V) (k : K)
    (h : containsKey k s.cache = false) :
    lruGet k s = (none, { s with misses := s.misses + 1 }) := by
  have hf : s.cache.find? (fun p => decide (p.1 = k)) = none := by
    rw [List.find?_eq_none]
    intro p hp
    simpa using containsKey_eq_false_iff.mp h p hp
  simp [lruGet, hf]

/-- Witness for C9: key 5 absent from a cache holding only key 1. -/
theorem c9_witness :
    containsKey 5 ([(1, 10)] : List (Nat × Nat)) = false ∧
    lruGet 5 ({ capacity := 2, cache := [(1, 10)], hits := 0, misses := 0,
                evictions := 0 } : LRUState Nat Nat) =
      (none, { capacity := 2, cache := [(1, 10)], hits := 0, misses := 0 + 1,
               evictions := 0 }) :=
  ⟨by decide,
   c9_get_absent_only_counts_miss
     { capacity := 2, cache := [(1, 10)], hits := 0, misses := 0, evictions := 0 }
     5 (by decide)⟩

/-! ### C2 -/

theorem lruPut_capacity (k : K) (v : V) (s : LRUState K V) :
    (lruPut k v s).capacity = s.capacity := rfl

theorem applyPuts_append_singleton (C : Nat) (ops : List (K × V)) (p : K × V) :
    applyPuts C (ops ++ [p]) = lruPut p.1 p.2 (applyPuts C ops) := by
  simp [applyPuts, List.foldl_append]

theorem applyPuts_capacity (C : Nat) (ops : List (K × V)) :
    (applyPuts C ops).capacity = C := by
  induction ops using List.reverseRecOn with
  | nil => rfl
  | append_singleton ops p ih =>
      rw [applyPuts_append_singleton, lruPut_capacity, ih]

theorem map_fst_eraseKey (k : K) (l : List (K × V)) :
    (eraseKey k l).map Prod.fst = (l.map Prod.fst).filter (fun x => decide (x ≠ k)) := by
  induction l with
  | nil => rfl
  | cons p t ih =>
      by_cases hp : p.1 = k
      · simp only [eraseKey, List.filter_cons, List.map_cons] at *
        rw [if_neg (by simp [hp]), if_neg (by simp [hp])]
        exact ih
      · simp only [eraseKey, List.filter_cons, List.map_cons] at *
        rw [if_pos (by simp [hp]), if_pos (by simp [hp]), List.map_cons, ih]

theorem containsKey_map_fst (k : K) (l : List (K × V)) :
    containsKey k l = (l.map Prod.fst).any (fun x => decide (x = k)) := by
  induction l with
  | nil => rfl
  | cons p t ih =>
      simp only [containsKey, List.map_cons, List.any_cons] at ih ⊢
      rw [ih]

/-- The recency-order keys produced by one `put`, in terms of the keys
before it: touch-or-insert at the tail, then keep the last
`capacity`-many. -/
theorem lruPut_keys (k : K) (v : V) (s : LRUState K V) :
    (lruPut k v s).cache.map Prod.fst =
      lastN s.capacity
        ((if (s.cache.map Prod.fst).any (fun x => decide (x = k)) then
            (s.cache.map Prod.fst).filter (fun x => decide (x ≠ k))
          else s.cache.map Prod.fst) ++ [k]) := by
  have hcontains : containsKey k s.cache =
      (s.cache.map Prod.fst).any (fun x => decide (x = k)) :=
    containsKey_map_fst k s.cache
  simp only [lruPut, evictIfNeeded_cache]
  by_cases hmem : containsKey k s.cache
  · rw [if_pos hmem, if_pos (hcontains ▸ hmem)]
    have hmap : (eraseKey k s.cache ++ [(k, v)]).map Prod.fst =
        (s.cache.map Prod.fst).filter (fun x => decide (x ≠ k)) ++ [k] := by
      rw [List.map_append, map_fst_eraseKey]
      rfl
    rw [lastN, List.map_drop, hmap]
    congr 1
    rw [← List.length_map (eraseKey k s.cache ++ [(k, v)]) Prod.fst, hmap]
  · rw [if_neg hmem, if_neg (hcontains ▸ hmem)]
    have hmap : (s.cache ++ [(k, v)]).map Prod.fst = s.cache.map Prod.fst ++ [k] := by
      simp
    rw [lastN, List.map_drop, hmap]
    congr 1
    rw [← List.length_map (s.cache ++ [(k, v)]) Prod.fst, hmap]

theorem mostRecentlyTouched_append_singleton (ks : List K) (k : K) :
    mostRecentlyTouched (ks ++ [k]) =
      (mostRecentlyTouched ks).filter (fun x => decide (x ≠ k)) ++ [k] := by
  simp [mostRecentlyTouched, List.foldl_append]

theorem filter_ne_eq_self_of_not_mem {l : List K} {k : K} (hk : k ∉ l) :
    l.filter (fun x => decide (x ≠ k)) = l :=
  List.filter_eq_self.mpr (fun x hx => decide_eq_true (fun he => hk (he ▸ hx)))

theorem length_filter_ne_of_mem {l : List K} {k : K} (hnd : l.Nodup) (hk : k ∈ l) :
    (l.filter (fun x => decide (x ≠ k))).length + 1 = l.length := by
  induction l with
  | nil => cases hk
  | cons x t ih =>
      obtain ⟨hxt, hndt⟩ := List.nodup_cons.mp hnd
      by_cases hxk : x = k
      · subst hxk
        rw [List.filter_cons, if_neg (by simp),
          filter_ne_eq_self_of_not_mem hxt]
        rfl
      · have hk' : k ∈ t := by
          cases List.mem_cons.mp hk with
          | inl h => exact absurd h.symm hxk
          | inr h => exact h
        rw [List.filter_cons, if_pos (by simpa using hxk), List.length_cons,
          List.length_cons, ← ih hndt hk']

theorem mostRecentlyTouched_nodup (ks : List K) : (mostRecentlyTouched ks).Nodup := by
  induction ks using List.reverseRecOn with
  | nil => exact List.nodup_nil
  | append_singleton ks k ih =>
      rw [mostRecentlyTouched_append_singleton]
      refine (ih.filter _).append (List.nodup_singleton k) ?_
      intro x hx hxk
      have h1 : x ≠ k := by simpa using (List.mem_filter.mp hx).2
      exact h1 (List.mem_singleton.mp hxk)

theorem lastN_append {α : Type} (C : Nat) (A L : List α) (h : C ≤ L.length) :
    lastN C (A ++ L) = lastN C L := by
  unfold lastN
  rw [List.length_append, List.drop_append_eq_append_drop,
    List.drop_eq_nil_of_le (by omega : A.length ≤ A.length + L.length - C),
    List.nil_append]
  congr 1
  omega

/-- The core step of the C2 induction, stated over key lists: applying
one touch of `k` to the resident suffix of the nodup history `R` and
trimming to capacity lands exactly on the resident suffix of the updated
history. -/
theorem residentStep (C : Nat) (hC : 1 ≤ C) (R : List K) (hR : R.Nodup) (k : K) :
    lastN C ((if (lastN C R).any (fun x => decide (x = k)) then
                (lastN C R).filter (fun x => decide (x ≠ k))
              else lastN C R) ++ [k])
      = lastN C (R.filter (fun x => decide (x ≠ k)) ++ [k]) := by
  have hsplit : R.take (R.length - C) ++ R.drop (R.length - C) = R :=
    List.take_append_drop (R.length - C) R
  set A := R.take (R.length - C) with hAdef
  set B := R.drop (R.length - C) with hBdef
  have hlastB : lastN C R = B := rfl
  have hAlen : A.length = R.length - C := by
    rw [hAdef, List.length_take]
    omega
  have hBlen : B.length = R.length - (R.length - C) := by
    rw [hBdef, List.length_drop]
  have hnodAB : A.Nodup ∧ B.Nodup ∧ A.Disjoint B :=
    List.nodup_append.mp (hsplit ▸ hR)
  by_cases hkB : k ∈ B
  · -- `k` is resident: the guard is true and no eviction is needed
    have hguard : B.any (fun x => decide (x = k)) = true :=
      List.any_eq_true.mpr ⟨k, hkB, by simp⟩
    rw [hlastB, if_pos hguard]
    have hkA : k ∉ A := fun hkA => hnodAB.2.2 hkA hkB
    have hfiltR : R.filter (fun x => decide (x ≠ k)) =
        A ++ B.filter (fun x => decide (x ≠ k)) := by
      rw [← hsplit, List.filter_append, filter_ne_eq_self_of_not_mem hkA]
    rw [hfiltR, List.append_assoc]
    by_cases hCle : C ≤ R.length
    · refine (lastN_append C A _ ?_).symm
      rw [List.length_append, List.length_singleton,
        length_filter_ne_of_mem hnodAB.2.1 hkB, hBlen]
      omega
    · have hA0 : A = [] := by
        rw [hAdef]
        rw [show R.length - C = 0 by omega]
        exact List.take_zero R
      rw [hA0, List.nil_append]
  · -- `k` is not resident: the guard is false and `k` is appended fresh
    have hguard : B.any (fun x => decide (x = k)) = false :=
      List.any_eq_false.mpr (fun x hx => by
        simp only [decide_eq_true_eq]
        exact fun he => hkB (he ▸ hx))
    rw [hlastB, if_neg (by simp [hguard])]
    have hfiltB : B.filter (fun x => decide (x ≠ k)) = B :=
      filter_ne_eq_self_of_not_mem hkB
    have hfiltR : R.filter (fun x => decide (x ≠ k)) =
        A.filter (fun x => decide (x ≠ k)) ++ B := by
      rw [← hsplit, List.filter_append, hfiltB]
    rw [hfiltR, List.append_assoc]
    by_cases hCle : C ≤ R.length
    · refine (lastN_append C _ _ ?_).symm
      rw [List.length_append, List.length_singleton, hBlen]
      omega
    · have hA0 : A = [] := by
        rw [hAdef]
        rw [show R.length - C = 0 by omega]
        exact List.take_zero R
      have hAf : A.filter (fun x => decide (x ≠ k)) = [] := by
        rw [hA0]
        rfl
      rw [hAf, List.nil_append]

/-- C2. For every sequence of `put` operations on a count-bounded
cache of capacity `C ≥ 1` (the constructor invariant): after the whole
sequence the resident entry count is at most `C`, and the resident keys
— in recency order — are exactly the last `C` (or fewer) entries of the
distinct put keys ordered by most recent touch.  Since the theorem holds
for every list `ops`, it gives the claim's "after every operation" form
by applying it to each prefix of the sequence. -/
theorem c2_resident_set_is_most_recent (C : Nat) (hC : 1 ≤ C) (ops : List (K × V)) :
    (applyPuts C ops).cache.length ≤ C ∧
    (applyPuts C ops).cache.map Prod.fst =
      lastN C (mostRecentlyTouched (ops.map Prod.fst)) := by
  have key : ∀ ops : List (K × V),
      (applyPuts C ops).cache.map Prod.fst =
        lastN C (mostRecentlyTouched (ops.map Prod.fst)) := by
    intro ops
    induction ops using List.reverseRecOn with
    | nil => simp [applyPuts, lruInit, mostRecentlyTouched, lastN]
    | append_singleton ops p ih =>
        rw [applyPuts_append_singleton, lruPut_keys, applyPuts_capacity, ih]
        rw [show (ops ++ [p]).map Prod.fst = ops.map Prod.fst ++ [p.1] by simp]
        rw [mostRecentlyTouched_append_singleton]
        exact residentStep C hC (mostRecentlyTouched (ops.map Prod.fst))
          (mostRecentlyTouched_nodup _) p.1
  refine ⟨?_, key ops⟩
  have hlen : (applyPuts C ops).cache.length =
      (lastN C (mostRecentlyTouched (ops.map Prod.fst))).length := by
    rw [← List.length_map (applyPuts C ops).cache Prod.fst, key ops]
  rw [hlen, lastN, List.length_drop]
  omega

/-- Witness for C2: capacity 2, puts on keys 1, 2, 1, 3 — the resident
keys end up `[1, 3]` (key 2 evicted), matching the last two distinct
keys by most recent touch. -/
theorem c2_witness :
    (1 : Nat) ≤ 2 ∧
    ((applyPuts 2 ([(1, 10), (2, 20), (1, 11), (3, 30)] : List (Nat × Nat))).cache.length ≤ 2 ∧
     (applyPuts 2 ([(1, 10), (2, 20), (1, 11), (3, 30)] : List (Nat × Nat))).cache.map Prod.fst =
       lastN 2 (mostRecentlyTouched (([(1, 10), (2, 20), (1, 11), (3, 30)] :
         List (Nat × Nat)).map Prod.fst))) :=
  ⟨by decide,
   c2_resident_set_is_most_recent 2 (by decide) [(1, 10), (2, 20), (1, 11), (3, 30)]⟩

end LRUSystem
